import Mathlib

/-!
Verification development for the github-mcp-server repository.

Two components carry the decision logic that the specification describes:

* the body text filter of `pkg/bodyfilter/bodyfilter.go`
  (`FilterBody`, `SetFilterPatterns`, the two default filter patterns);
* the repository path validator `validateRepoPath` of `pkg/git/git.go`.

Strings are modelled as `List Char`.  The Go regular expressions of the
default rule set are deterministic (every quantifier in them is forced),
so each rule is embedded as a direct string transformation that mirrors
`regexp.ReplaceAllString` for that particular pattern.
-/

namespace BodyFilter

/-- The literal that anchors the first default filter pattern,
`(?m)^Co-Authored-By:.*$` (see `defaultFilterPatterns` in
`pkg/bodyfilter/bodyfilter.go`). -/
def coAuthorLit : List Char := "Co-Authored-By:".toList

/-- Split a character list at every occurrence of `sep`, keeping empty
pieces.  `splitOnC '\n'` yields the lines of a text, which is how the
line-anchored rule `(?m)^...$` sees its input. -/
def splitOnC (sep : Char) : List Char → List (List Char)
  | [] => [[]]
  | c :: t =>
    match splitOnC sep t with
    | [] => [[c]]
    | h :: r => if c = sep then [] :: h :: r else (c :: h) :: r

/-- Join pieces with a single `sep` between consecutive pieces;
inverse of `splitOnC`. -/
def joinWithC (sep : Char) : List (List Char) → List Char
  | [] => []
  | [l] => l
  | l :: r => l ++ sep :: joinWithC sep r

/-- One line under the rule `(?m)^Co-Authored-By:.*$` with empty
replacement: a line beginning with the literal has its whole content
removed (`.*$` is greedy to the end of the line), any other line is
untouched. -/
def stripCoAuthorLine (l : List Char) : List Char :=
  if coAuthorLit.isPrefixOf l then [] else l

/-- `ReplaceAllString` of the first default pattern
`(?m)^Co-Authored-By:.*$` with `""`:  every line that begins with
`Co-Authored-By:` is emptied, the newline separators stay. -/
def applyCoAuthor (s : List Char) : List Char :=
  joinWithC '\n' ((splitOnC '\n' s).map stripCoAuthorLine)

/-- Whether the first default pattern matches anywhere: some line begins
with `Co-Authored-By:`. -/
def hasCoAuthorMatch (s : List Char) : Bool :=
  (splitOnC '\n' s).any fun l => coAuthorLit.isPrefixOf l

/-- The character class `\s` of Go regular expressions: `[\t\n\f\r ]`. -/
def isRegexSpace (c : Char) : Bool :=
  c = ' ' || c = '\t' || c = '\n' || c = '\x0c' || c = '\r'

/-- The fixed text `Pull Request opened by [` of the second default
pattern. -/
def prOpenedLit : List Char := "Pull Request opened by [".toList

/-- The fixed text between the closing parenthesis of the URL and the
attribution in the second default pattern. -/
def guidanceLit : List Char := " with guidance from ".toList

/-- Tail of the second default pattern, ` with guidance from [^\n]+`:
the fixed text, then a non-empty greedy run of non-newline characters
with nothing after it, so the match extends exactly to the end of the
line.  Returns the remainder after the match. -/
def matchAttribution (s7 : List Char) : Option (List Char) :=
  if guidanceLit.isPrefixOf s7 then
    if (s7.drop guidanceLit.length).takeWhile (· ≠ '\n') = [] then none
    else some ((s7.drop guidanceLit.length).dropWhile (· ≠ '\n'))
  else none

/-- The `[^\]]+\]\([^)]+\)` part of the second default pattern followed
by its tail: the tool name is the (non-empty) run up to the first `]`,
which must be followed immediately by `(`; the URL is the (non-empty)
run up to the first `)`. -/
def matchLinkAndTail (s3 : List Char) : Option (List Char) :=
  if s3.takeWhile (· ≠ ']') = [] then none
  else
    match s3.dropWhile (· ≠ ']') with
    | ']' :: '(' :: s5 =>
      if s5.takeWhile (· ≠ ')') = [] then none
      else
        match s5.dropWhile (· ≠ ')') with
        | ')' :: s7 => matchAttribution s7
        | _ => none
    | _ => none

/-- Attempt to match the second default pattern
`(?s)---\s*Pull Request opened by \[[^\]]+\]\([^)]+\) with guidance from [^\n]+`
at the head of `s`; on success return the remainder of `s` after the
match.  Every quantifier of the pattern is forced: `\s*` must end at
the first non-space character because the next pattern character is a
`P`, `[^\]]+` must end at the first `]`, `[^)]+` at the first `)`, and
`[^\n]+` is greedy with nothing after it.  Hence the match at a given
position is unique, and this function computes it. -/
def matchFooter : List Char → Option (List Char)
  | '-' :: '-' :: '-' :: s1 =>
    if prOpenedLit.isPrefixOf (s1.dropWhile isRegexSpace) then
      matchLinkAndTail ((s1.dropWhile isRegexSpace).drop prOpenedLit.length)
    else none
  | _ => none

/-- Scan of `ReplaceAllString` for the second default pattern with `""`:
at each position try the (unique) match; on success drop the matched
span and resume after it, otherwise keep the character and move on.
The `Nat` argument counts characters of a successful match that remain
to be discarded, which keeps the recursion structural. -/
def footerScan : List Char → Nat → List Char
  | [], _ => []
  | _ :: t, Nat.succ k => footerScan t k
  | c :: t, 0 =>
    match matchFooter (c :: t) with
    | some rest => footerScan t ((c :: t).length - rest.length - 1)
    | none => c :: footerScan t 0

/-- `ReplaceAllString` of the second default pattern with `""`. -/
def applyFooter (s : List Char) : List Char := footerScan s 0

/-- Whether the second default pattern matches anywhere in `s`. -/
def hasFooterMatch : List Char → Bool
  | [] => false
  | c :: t => (matchFooter (c :: t)).isSome || hasFooterMatch t

/-- The cleanup step `multipleNewlines.ReplaceAllString(filtered, "\n\n")`
for the pattern of three or more consecutive newlines: every maximal run
of `k ≥ 3` newlines is shortened to exactly two.  The counter is the
number of newlines of the current run that have already been emitted,
capped at two. -/
def collapseNewlines : Nat → List Char → List Char
  | _, [] => []
  | n, c :: t =>
    if c = '\n' then
      if 2 ≤ n then collapseNewlines n t
      else '\n' :: collapseNewlines (n + 1) t
    else c :: collapseNewlines 0 t

/-- The blank-line cleanup of `FilterBody`. -/
def collapseBlankRuns (s : List Char) : List Char := collapseNewlines 0 s

/-- The predicate `unicode.IsSpace` used by `strings.TrimSpace`:
the Unicode White_Space characters. -/
def isGoSpace (c : Char) : Bool :=
  (9 ≤ c.toNat && c.toNat ≤ 13) || c.toNat = 32 || c.toNat = 0x85 ||
    c.toNat = 0xA0 || c.toNat = 0x1680 ||
    (0x2000 ≤ c.toNat && c.toNat ≤ 0x200A) || c.toNat = 0x2028 ||
    c.toNat = 0x2029 || c.toNat = 0x202F || c.toNat = 0x205F ||
    c.toNat = 0x3000

/-- `strings.TrimSpace`: remove leading and trailing whitespace. -/
def trimSpace (s : List Char) : List Char :=
  List.rdropWhile isGoSpace (s.dropWhile isGoSpace)

/-- `FilterBody` of `pkg/bodyfilter/bodyfilter.go` under the default
rule set installed by `init`: the empty fast path, then the two default
rules in order, then the blank-run cleanup, then `strings.TrimSpace`. -/
def FilterBody (body : List Char) : List Char :=
  if body = [] then body
  else trimSpace (collapseBlankRuns (applyFooter (applyCoAuthor body)))

/-- `SetFilterPatterns` of `pkg/bodyfilter/bodyfilter.go`: compile the
patterns in order, skip (after a log line) every pattern that fails to
compile, and install the successes as the new rule set.  The library
function `regexp.Compile` is external to the repository and is taken as
a parameter returning `Option`. -/
def SetFilterPatterns {Rule : Type} (compile : List Char → Option Rule) :
    List (List Char) → List Rule
  | [] => []
  | p :: rest =>
    match compile p with
    | none => SetFilterPatterns compile rest
    | some r => r :: SetFilterPatterns compile rest

end BodyFilter

deriving instance DecidableEq for Except

namespace GitTools

open BodyFilter (splitOnC joinWithC)

/-- Whether a path is absolute on Unix (`filepath.IsAbs`): it begins
with a slash. -/
def isAbsPath (p : List Char) : Bool := p.head? = some '/'

/-- The element-processing loop of `filepath.Clean` (Unix): empty and
`.` elements are dropped; `..` pops the last kept element when one is
available, is dropped at the root of a rooted path, and is kept in an
unrooted path with nothing left to pop.  The accumulator holds the kept
elements in reverse order. -/
def cleanSegs (rooted : Bool) : List (List Char) → List (List Char) → List (List Char)
  | [], acc => acc.reverse
  | seg :: rest, acc =>
    if seg = [] || seg = ['.'] then cleanSegs rooted rest acc
    else if seg = ['.', '.'] then
      match acc with
      | [] => if rooted then cleanSegs rooted rest [] else cleanSegs rooted rest [seg]
      | top :: acc' =>
        if rooted then cleanSegs rooted rest acc'
        else if top = ['.', '.'] then cleanSegs rooted rest (seg :: acc)
        else cleanSegs rooted rest acc'
    else cleanSegs rooted rest (seg :: acc)

/-- `filepath.Clean` for Unix paths: shortest lexically equivalent path,
`.` for an empty result, with the leading slash of a rooted path
preserved. -/
def goClean (p : List Char) : List Char :=
  if p = [] then ['.']
  else
    let rooted := isAbsPath p
    let segs := cleanSegs rooted (splitOnC '/' p) []
    if rooted then '/' :: joinWithC '/' segs
    else if segs = [] then ['.']
    else joinWithC '/' segs

/-- `filepath.Join` of two elements: the non-empty elements joined with
a slash, then cleaned. -/
def goJoin (a b : List Char) : List Char :=
  if a = [] then (if b = [] then [] else goClean b)
  else if b = [] then goClean a
  else goClean (a ++ '/' :: b)

/-- `filepath.Abs`: an absolute path is cleaned, a relative path is
joined to the current working directory (`os.Getwd` is modelled by the
parameter `cwd`).  The error return of `filepath.Abs` can only arise
from a failing `os.Getwd`, which the model leaves out, so the
`invalid path` branch of the validator is never taken here. -/
def goAbs (cwd p : List Char) : List Char :=
  if isAbsPath p then goClean p else goJoin cwd p

/-- The `.git` entry name checked by the validator. -/
def dotGit : List Char := ".git".toList

/-- The distinct failure conditions of `validateRepoPath`. -/
inductive RepoPathError
  | noRepoConfigured
  | accessDenied
  | notGitRepository
  deriving DecidableEq

/-- `validateRepoPath` of `pkg/git/git.go`.  `gitExists gp = true`
models `os.Stat(gp)` not failing with `os.IsNotExist` (a `.git`
directory or file is present). -/
def validateRepoPath (gitExists : List Char → Bool) (cwd : List Char)
    (requestedPath : List Char) (allowedPaths : List (List Char)) :
    Except RepoPathError (List Char) :=
  if requestedPath = [] then
    match allowedPaths with
    | a :: _ => .ok a
    | [] => .error .noRepoConfigured
  else
    let absPath := goAbs cwd requestedPath
    let isAllowed := allowedPaths.any fun repoPath => repoPath.isPrefixOf absPath
    if !isAllowed && !allowedPaths.isEmpty then .error .accessDenied
    else if !gitExists (goJoin absPath dotGit) then .error .notGitRepository
    else .ok absPath

end GitTools

namespace Claims

open BodyFilter GitTools

/-- Splitting never yields an empty list of pieces. -/
lemma splitOnC_ne_nil (sep : Char) (s : List Char) : splitOnC sep s ≠ [] := by
  cases s with
  | nil => simp [splitOnC]
  | cons c t =>
    cases t' : splitOnC sep t with
    | nil => simp [splitOnC, t']
    | cons h r => by_cases hc : c = sep <;> simp [splitOnC, t', hc]

/-- Prepending a character to the first piece commutes with joining. -/
lemma joinWithC_cons_cons (sep c : Char) (h : List Char) (r : List (List Char)) :
    joinWithC sep ((c :: h) :: r) = c :: joinWithC sep (h :: r) := by
  cases r <;> simp [joinWithC]

/-- Joining undoes splitting. -/
lemma joinWithC_splitOnC (sep : Char) (s : List Char) :
    joinWithC sep (splitOnC sep s) = s := by
  induction s with
  | nil => rfl
  | cons c t ih =>
    cases t' : splitOnC sep t with
    | nil => exact absurd t' (splitOnC_ne_nil sep t)
    | cons h r =>
      by_cases hc : c = sep
      · have hs : splitOnC sep (c :: t) = [] :: h :: r := by
          simp [splitOnC, t', hc]
        have hj : joinWithC sep ([] :: h :: r) = sep :: joinWithC sep (h :: r) := by
          simp [joinWithC]
        rw [hs, hj, ← t', ih, hc]
      · have hs : splitOnC sep (c :: t) = (c :: h) :: r := by
          simp [splitOnC, t', hc]
        rw [hs, joinWithC_cons_cons, ← t', ih]

/-- Every piece is an infix of the joined text. -/
lemma infix_of_mem_joinWithC (sep : Char) {l : List Char}
    {ls : List (List Char)} (h : l ∈ ls) : l <:+: joinWithC sep ls := by
  induction ls with
  | nil => cases h
  | cons a ls ih =>
    cases ls with
    | nil =>
      have : l = a := by simpa using h
      subst this
      exact List.infix_rfl
    | cons b bs =>
      have hj : joinWithC sep (a :: b :: bs)
          = a ++ sep :: joinWithC sep (b :: bs) := by
        simp [joinWithC]
      rcases List.mem_cons.mp h with rfl | hmem
      · rw [hj]
        exact (List.prefix_append _ _).isInfix
      · rw [hj]
        exact (ih hmem).trans
          (((List.suffix_cons sep _).trans (List.suffix_append _ _)).isInfix)

/-- Every piece of a split text is an infix of the text. -/
lemma infix_of_mem_splitOnC {sep : Char} {s l : List Char}
    (h : l ∈ splitOnC sep s) : l <:+: s := by
  have := infix_of_mem_joinWithC sep h
  rwa [joinWithC_splitOnC] at this

/-- A prefix of a concatenation is a prefix of the left part or extends
it into the right part. -/
lemma prefix_append_decomp {L a b : List Char} (h : L <+: a ++ b) :
    L <+: a ∨ ∃ r, L = a ++ r ∧ r <+: b := by
  induction a generalizing L with
  | nil =>
    right
    exact ⟨L, rfl, by simpa using h⟩
  | cons x a ih =>
    rcases List.prefix_cons_iff.mp h with rfl | ⟨t, rfl, ht⟩
    · exact Or.inl List.nil_prefix
    · rcases ih ht with h1 | ⟨r, rfl, hr⟩
      · exact Or.inl (List.cons_prefix_cons.mpr ⟨rfl, h1⟩)
      · exact Or.inr ⟨r, by simp, hr⟩

/-- An infix of a concatenation lies in the left part, lies in the
right part, or straddles the junction. -/
lemma infix_append_decomp {L a b : List Char} (h : L <:+: a ++ b) :
    L <:+: a ∨ L <:+: b ∨
      ∃ l r, L = l ++ r ∧ l ≠ [] ∧ r ≠ [] ∧ l <:+ a ∧ r <+: b := by
  induction a generalizing L with
  | nil =>
    right
    left
    simpa using h
  | cons x a ih =>
    rcases List.infix_cons_iff.mp h with hpre | hinf
    · rcases List.prefix_cons_iff.mp hpre with rfl | ⟨t, rfl, ht⟩
      · exact Or.inl (List.nil_prefix.isInfix)
      · rcases prefix_append_decomp ht with h1 | ⟨r, rfl, hr⟩
        · exact Or.inl (List.cons_prefix_cons.mpr ⟨rfl, h1⟩).isInfix
        · by_cases hrnil : r = []
          · subst hrnil
            exact Or.inl (by simp)
          · exact Or.inr (Or.inr ⟨x :: a, r, by simp, by simp, hrnil,
              List.suffix_rfl, hr⟩)
    · rcases ih hinf with h1 | h2 | ⟨l, r, rfl, hl, hr, hla, hrb⟩
      · exact Or.inl (h1.trans (List.suffix_cons x a).isInfix)
      · exact Or.inr (Or.inl h2)
      · exact Or.inr (Or.inr ⟨l, r, rfl, hl, hr,
          hla.trans (List.suffix_cons x a), hrb⟩)

/-- A non-empty infix of a joined text that avoids the separator lies
inside one of the pieces. -/
lemma infix_joinWithC {L : List Char} {sep : Char} {ls : List (List Char)}
    (hL : L ≠ []) (hsep : sep ∉ L) (h : L <:+: joinWithC sep ls) :
    ∃ l ∈ ls, L <:+: l := by
  induction ls with
  | nil =>
    rw [show joinWithC sep [] = [] from rfl] at h
    exact absurd (by simpa using h) hL
  | cons a ls ih =>
    cases ls with
    | nil => exact ⟨a, by simp, by simpa [joinWithC] using h⟩
    | cons b bs =>
      rw [show joinWithC sep (a :: b :: bs)
          = a ++ sep :: joinWithC sep (b :: bs) from by simp [joinWithC]] at h
      rcases infix_append_decomp h with h1 | h2 | ⟨l, r, rfl, hl, hr, hla, hrb⟩
      · exact ⟨a, by simp, h1⟩
      · rcases List.infix_cons_iff.mp h2 with hpre | hinf
        · rcases List.prefix_cons_iff.mp hpre with rfl | ⟨t, rfl, ht⟩
          · exact absurd rfl hL
          · exact absurd (List.mem_cons_self sep t) hsep
        · obtain ⟨l, hmem, hinf'⟩ := ih hinf
          exact ⟨l, by simp [hmem], hinf'⟩
      · rcases List.prefix_cons_iff.mp hrb with rfl | ⟨t, rfl, ht⟩
        · exact absurd rfl hr
        · exact absurd (by simp : sep ∈ l ++ sep :: t) hsep

/-- Every character of the collapsed text occurs in the original
text. -/
lemma mem_collapseNewlines {c : Char} :
    ∀ (n : Nat) (s : List Char), c ∈ collapseNewlines n s → c ∈ s := by
  intro n s
  induction s generalizing n with
  | nil => simp [collapseNewlines]
  | cons a t ih =>
    intro h
    rw [collapseNewlines] at h
    by_cases ha : a = '\n'
    · rw [if_pos ha] at h
      by_cases hn : 2 ≤ n
      · rw [if_pos hn] at h
        exact List.mem_cons_of_mem a (ih n h)
      · rw [if_neg hn] at h
        rcases List.mem_cons.mp h with rfl | h'
        · simp [ha]
        · exact List.mem_cons_of_mem a (ih (n + 1) h')
    · rw [if_neg ha] at h
      rcases List.mem_cons.mp h with rfl | h'
      · exact List.mem_cons_self c t
      · exact List.mem_cons_of_mem a (ih 0 h')

/-- The collapsed text never contains three consecutive newlines, and
the pending-newline counter bounds how many newlines it can start
with. -/
lemma collapseNewlines_no_three (t : List Char) : ∀ n : Nat,
    ¬ (['\n', '\n', '\n'] <:+: collapseNewlines n t) ∧
    (1 ≤ n → ¬ (['\n', '\n'] <+: collapseNewlines n t)) ∧
    (2 ≤ n → ¬ (['\n'] <+: collapseNewlines n t)) := by
  induction t with
  | nil =>
    intro n
    refine ⟨?_, fun _ => ?_, fun _ => ?_⟩ <;>
      simp [collapseNewlines]
  | cons c t ih =>
    intro n
    rw [collapseNewlines]
    by_cases hc : c = '\n'
    · rw [if_pos hc]
      by_cases hn : 2 ≤ n
      · rw [if_pos hn]
        exact ⟨(ih n).1, fun _ => (ih n).2.1 (by omega), fun _ => (ih n).2.2 hn⟩
      · rw [if_neg hn]
        refine ⟨?_, fun h1 => ?_, fun h2 => absurd h2 hn⟩
        · intro hinf
          rcases List.infix_cons_iff.mp hinf with hpre | hinf'
          · rcases List.cons_prefix_cons.mp hpre with ⟨-, hpre'⟩
            exact (ih (n + 1)).2.1 (by omega) hpre'
          · exact (ih (n + 1)).1 hinf'
        · intro hpre
          rcases List.cons_prefix_cons.mp hpre with ⟨-, hpre'⟩
          exact (ih (n + 1)).2.2 (by omega) hpre'
    · rw [if_neg hc]
      refine ⟨?_, fun _ => ?_, fun _ => ?_⟩
      · intro hinf
        rcases List.infix_cons_iff.mp hinf with hpre | hinf'
        · exact hc (List.cons_prefix_cons.mp hpre).1.symm
        · exact (ih 0).1 hinf'
      · intro hpre
        exact hc (List.cons_prefix_cons.mp hpre).1.symm
      · intro hpre
        exact hc (List.cons_prefix_cons.mp hpre).1.symm

/-- A text with no run of three newlines, even taking `n` pending
newlines into account, collapses to itself. -/
lemma collapseNewlines_id (s : List Char) : ∀ n : Nat,
    ¬ (['\n', '\n', '\n'] <:+: (List.replicate n '\n' ++ s)) →
      collapseNewlines n s = s := by
  induction s with
  | nil => intro n _; rfl
  | cons c t ih =>
    intro n h
    rw [collapseNewlines]
    by_cases hc : c = '\n'
    · rw [if_pos hc]
      have hrep : List.replicate n '\n' ++ c :: t
          = List.replicate (n + 1) '\n' ++ t := by
        rw [List.replicate_succ', hc]
        simp
      have hn : ¬ 2 ≤ n := by
        intro hn2
        apply h
        obtain ⟨k, rfl⟩ : ∃ k, n = k + 2 := ⟨n - 2, by omega⟩
        rw [hrep]
        have : List.replicate (k + 2 + 1) '\n'
            = List.replicate k '\n' ++ ['\n', '\n', '\n'] := by
          rw [show k + 2 + 1 = k + 3 from rfl, List.replicate_add]
          rfl
        rw [this, List.append_assoc]
        exact ((List.prefix_append _ t).isInfix).trans
          (List.suffix_append _ _).isInfix
      rw [if_neg hn]
      rw [hrep] at h
      rw [ih (n + 1) h, hc]
    · rw [if_neg hc]
      have : ¬ (['\n', '\n', '\n'] <:+: t) := by
        intro h3
        exact h (h3.trans (((List.suffix_cons c t).trans
          (List.suffix_append _ _)).isInfix))
      rw [ih 0 (by simpa using this)]

/-- `trimSpace` returns an infix of its input. -/
lemma trimSpace_infix_self (s : List Char) : trimSpace s <:+: s :=
  (List.rdropWhile_prefix _ _).isInfix.trans
    (List.dropWhile_suffix _).isInfix

/-- The head of a non-trivial `dropWhile` result fails the
predicate. -/
lemma dropWhile_head_false {p : Char → Bool} :
    ∀ (s : List Char) (a : Char) (l : List Char),
      s.dropWhile p = a :: l → p a = false := by
  intro s
  induction s with
  | nil => intro a l h; cases h
  | cons x t ih =>
    intro a l h
    rw [List.dropWhile_cons] at h
    by_cases hx : p x = true
    · rw [if_pos hx] at h
      exact ih a l h
    · rw [if_neg hx] at h
      cases h
      exact Bool.not_eq_true _ |>.mp hx

/-- The first character of a trimmed text is not whitespace. -/
lemma trimSpace_head {s : List Char} {a : Char}
    (h : (trimSpace s).head? = some a) : isGoSpace a = false := by
  unfold trimSpace at h
  obtain ⟨l, hl⟩ : ∃ l, List.rdropWhile isGoSpace (s.dropWhile isGoSpace)
      = a :: l := by
    cases hT : List.rdropWhile isGoSpace (s.dropWhile isGoSpace) with
    | nil => rw [hT] at h; cases h
    | cons x xs =>
      rw [hT] at h
      cases h
      exact ⟨xs, rfl⟩
  obtain ⟨t, ht⟩ := List.rdropWhile_prefix isGoSpace (s.dropWhile isGoSpace)
  rw [hl] at ht
  exact dropWhile_head_false s a (l ++ t) (by rw [← ht]; rfl)

/-- The last character of a trimmed text is not whitespace. -/
lemma trimSpace_getLast {s : List Char} {a : Char}
    (h : (trimSpace s).getLast? = some a) : isGoSpace a = false := by
  unfold trimSpace List.rdropWhile at h
  rw [List.getLast?_reverse] at h
  obtain ⟨l, hl⟩ : ∃ l, List.dropWhile isGoSpace (s.dropWhile isGoSpace).reverse
      = a :: l := by
    cases hT : List.dropWhile isGoSpace (s.dropWhile isGoSpace).reverse with
    | nil => rw [hT] at h; cases h
    | cons x xs =>
      rw [hT] at h
      cases h
      exact ⟨xs, rfl⟩
  exact dropWhile_head_false _ a l hl

/-- Trimming an already trimmed text changes nothing. -/
lemma trimSpace_idempotent (s : List Char) :
    trimSpace (trimSpace s) = trimSpace s := by
  have hdrop : (trimSpace s).dropWhile isGoSpace = trimSpace s := by
    cases hT : trimSpace s with
    | nil => rfl
    | cons a l =>
      have ha : isGoSpace a = false :=
        trimSpace_head (s := s) (by rw [hT]; rfl)
      rw [List.dropWhile_cons, ha]
      simp
  show List.rdropWhile isGoSpace ((trimSpace s).dropWhile isGoSpace) = trimSpace s
  rw [hdrop]
  show List.rdropWhile isGoSpace
      (List.rdropWhile isGoSpace (s.dropWhile isGoSpace)) = trimSpace s
  rw [List.rdropWhile_idempotent]
  rfl

/-- Without a co-author match the first rule pass is the identity. -/
lemma applyCoAuthor_id {s : List Char} (h : hasCoAuthorMatch s = false) :
    applyCoAuthor s = s := by
  unfold applyCoAuthor
  have hall : ∀ l ∈ splitOnC '\n' s, stripCoAuthorLine l = id l := by
    intro l hl
    have hfalse : ¬ coAuthorLit.isPrefixOf l = true :=
      List.any_eq_false.mp h l hl
    simp [stripCoAuthorLine, hfalse]
  rw [List.map_congr_left hall, List.map_id, joinWithC_splitOnC]

/-- The footer pattern can only match at a dash. -/
lemma matchFooter_some_head {s rest : List Char}
    (h : matchFooter s = some rest) :
    ∃ s1, s = '-' :: '-' :: '-' :: s1 := by
  unfold matchFooter at h
  split at h
  · next s1 => exact ⟨s1, rfl⟩
  · exact Option.noConfusion h

/-- Without a footer match the second rule pass is the identity. -/
lemma footerScan_id : ∀ s : List Char, hasFooterMatch s = false →
    footerScan s 0 = s := by
  intro s
  induction s with
  | nil => intro _; rfl
  | cons c t ih =>
    intro h
    rw [hasFooterMatch, Bool.or_eq_false_iff] at h
    have hnone : matchFooter (c :: t) = none :=
      Option.not_isSome_iff_eq_none.mp (by simp [h.1])
    rw [footerScan, hnone, ih h.2]

/-- A footer match anywhere puts three consecutive dashes into the
text. -/
lemma hasFooterMatch_dashes : ∀ s : List Char, hasFooterMatch s = true →
    ['-', '-', '-'] <:+: s := by
  intro s
  induction s with
  | nil => intro h; cases h
  | cons c t ih =>
    intro h
    rw [hasFooterMatch, Bool.or_eq_true] at h
    rcases h with h1 | h2
    · obtain ⟨rest, hrest⟩ := Option.isSome_iff_exists.mp h1
      obtain ⟨s1, hs1⟩ := matchFooter_some_head hrest
      rw [hs1]
      exact (List.cons_prefix_cons.mpr ⟨rfl, List.cons_prefix_cons.mpr
        ⟨rfl, List.cons_prefix_cons.mpr ⟨rfl, List.nil_prefix⟩⟩⟩).isInfix
    · exact (ih h2).trans (List.suffix_cons c t).isInfix

/-- A co-author match anywhere puts the co-author literal into the
text. -/
lemma hasCoAuthorMatch_contains_lit {s : List Char}
    (h : hasCoAuthorMatch s = true) : coAuthorLit <:+: s := by
  obtain ⟨l, hmem, hpre⟩ := List.any_eq_true.mp h
  exact (List.isPrefixOf_iff_prefix.mp hpre).isInfix.trans
    (infix_of_mem_splitOnC hmem)

/-- C8: `FilterBody` output never contains a run of three or more
consecutive newlines and never starts or ends with whitespace
(including newlines); a whitespace-only input filters to the empty
string. -/
theorem c8_whitespace_normalization (x : List Char) :
    ¬ (['\n', '\n', '\n'] <:+: FilterBody x) ∧
    (∀ a, (FilterBody x).head? = some a → isGoSpace a = false) ∧
    (∀ a, (FilterBody x).getLast? = some a → isGoSpace a = false) ∧
    ((∀ c ∈ x, isGoSpace c = true) → FilterBody x = []) := by
  by_cases hx : x = []
  · subst hx
    refine ⟨?_, ?_, ?_, fun _ => rfl⟩ <;> simp [FilterBody]
  · have hbody : FilterBody x
        = trimSpace (collapseBlankRuns (applyFooter (applyCoAuthor x))) := by
      rw [FilterBody, if_neg hx]
    refine ⟨?_, ?_, ?_, ?_⟩
    · rw [hbody]
      intro h3
      exact (collapseNewlines_no_three _ 0).1
        (h3.trans (trimSpace_infix_self _))
    · intro a ha
      rw [hbody] at ha
      exact trimSpace_head ha
    · intro a ha
      rw [hbody] at ha
      exact trimSpace_getLast ha
    · intro hws
      have hCo : hasCoAuthorMatch x = false := by
        rw [hasCoAuthorMatch, List.any_eq_false]
        intro l hl hpre
        have hC1 : 'C' ∈ l :=
          List.IsPrefix.mem (by decide) (List.isPrefixOf_iff_prefix.mp hpre)
        have hC : 'C' ∈ x := List.IsInfix.mem hC1 (infix_of_mem_splitOnC hl)
        have := hws 'C' hC
        exact absurd this (by decide)
      have hFo : hasFooterMatch x = false := by
        cases hF : hasFooterMatch x with
        | false => rfl
        | true =>
          have hdash : '-' ∈ x :=
            ((hasFooterMatch_dashes x hF).sublist).mem (by decide)
          exact absurd (hws '-' hdash) (by decide)
      rw [hbody, applyCoAuthor_id hCo]
      show trimSpace (collapseNewlines 0 (footerScan x 0)) = []
      rw [footerScan_id x hFo]
      have hcoll : ∀ c ∈ collapseNewlines 0 x, isGoSpace c = true :=
        fun c hc => hws c (mem_collapseNewlines 0 x hc)
      show List.rdropWhile isGoSpace
        ((collapseNewlines 0 x).dropWhile isGoSpace) = []
      rw [List.dropWhile_eq_nil_iff.mpr hcoll]
      simp [List.rdropWhile]

/-- Closed instance of `c8_whitespace_normalization` on a
whitespace-only input. -/
theorem c8_whitespace_normalization_witness :
    FilterBody "   \n\n\n   ".toList = [] :=
  (c8_whitespace_normalization "   \n\n\n   ".toList).2.2.2 (by decide)

/-- C1 counterexample: `FilterBody` is not idempotent on every string.
On `" Co-Authored-By: x"` no rule matches (the line does not begin at
the literal), but trimming the leading space exposes a line-anchored
co-author match, so a second application removes the whole text. -/
theorem c1_idempotence_counterexample :
    FilterBody (FilterBody " Co-Authored-By: x".toList)
      ≠ FilterBody " Co-Authored-By: x".toList := by
  decide

/-- C1 (amended): `FilterBody` is idempotent on every input whose
output contains no match of either default rule; the collapse step is
closed under reapplication and the trim step leaves no leading or
trailing whitespace, so a second application changes nothing. -/
theorem c1_idempotent_on_match_free_output (x : List Char)
    (hco : hasCoAuthorMatch (FilterBody x) = false)
    (hfo : hasFooterMatch (FilterBody x) = false) :
    FilterBody (FilterBody x) = FilterBody x := by
  by_cases hy : FilterBody x = []
  · rw [hy]
    rfl
  · have hx : x ≠ [] := fun h => hy (by rw [h]; rfl)
    have hbody : FilterBody x
        = trimSpace (collapseBlankRuns (applyFooter (applyCoAuthor x))) := by
      rw [FilterBody, if_neg hx]
    have hno3 : ¬ (['\n', '\n', '\n'] <:+: FilterBody x) := by
      rw [hbody]
      intro h3
      exact (collapseNewlines_no_three _ 0).1 (h3.trans (trimSpace_infix_self _))
    rw [FilterBody, if_neg hy, applyCoAuthor_id hco]
    show trimSpace (collapseNewlines 0 (footerScan (FilterBody x) 0))
      = FilterBody x
    rw [footerScan_id _ hfo,
      collapseNewlines_id (FilterBody x) 0 (by simpa using hno3)]
    rw [hbody]
    exact trimSpace_idempotent _

/-- Closed instance of `c1_idempotent_on_match_free_output`. -/
theorem c1_idempotent_on_match_free_output_witness :
    FilterBody (FilterBody "Fix bug\n\n\n\nCo-Authored-By: J <j@x.com>\n  ".toList)
      = FilterBody "Fix bug\n\n\n\nCo-Authored-By: J <j@x.com>\n  ".toList :=
  c1_idempotent_on_match_free_output _ (by decide) (by decide)

/-- A prefix whose characters all satisfy `p` is also a prefix of the
`takeWhile p` part. -/
lemma prefix_takeWhile {p : Char → Bool} :
    ∀ {l x : List Char}, l <+: x → (∀ a ∈ l, p a = true) →
      l <+: x.takeWhile p := by
  intro l
  induction l with
  | nil => intro x _ _; exact List.nil_prefix
  | cons a l' ih =>
    intro x h hall
    rcases x with _ | ⟨b, x'⟩
    · exact absurd h (by simp)
    · rcases List.cons_prefix_cons.mp h with ⟨rfl, h'⟩
      have hpa : p a = true := hall a (List.mem_cons_self a l')
      rw [List.takeWhile_cons, hpa]
      exact List.cons_prefix_cons.mpr
        ⟨rfl, ih h' fun b hb => hall b (List.mem_cons_of_mem a hb)⟩

/-- Collapsing does not change the text before the first newline. -/
lemma collapse_takeWhile_ne_newline : ∀ t : List Char,
    (collapseNewlines 0 t).takeWhile (· ≠ '\n')
      = t.takeWhile (· ≠ '\n') := by
  intro t
  induction t with
  | nil => rfl
  | cons c t' ih =>
    rw [collapseNewlines]
    by_cases hc : c = '\n'
    · rw [if_pos hc, if_neg (by omega), hc]
      simp [List.takeWhile_cons]
    · rw [if_neg hc, List.takeWhile_cons, List.takeWhile_cons,
        show (decide (c ≠ '\n')) = true from by simp [hc], if_pos rfl, ih]
      rfl

/-- A non-empty newline-free infix of the collapsed text is an infix of
the original text: collapsing deletes newlines only, so every adjacency
it creates involves a newline. -/
lemma infix_collapse {L : List Char} (hL : L ≠ []) (hnl : '\n' ∉ L) :
    ∀ (s : List Char) (n : Nat), L <:+: collapseNewlines n s → L <:+: s := by
  intro s
  induction s with
  | nil =>
    intro n h
    rw [collapseNewlines] at h
    exact absurd (by simpa using h) hL
  | cons c t ih =>
    intro n h
    rw [collapseNewlines] at h
    by_cases hc : c = '\n'
    · rw [if_pos hc] at h
      by_cases hn : 2 ≤ n
      · rw [if_pos hn] at h
        exact (ih n h).trans (List.suffix_cons c t).isInfix
      · rw [if_neg hn] at h
        rcases List.infix_cons_iff.mp h with hpre | hinf
        · rcases List.prefix_cons_iff.mp hpre with rfl | ⟨u, rfl, hu⟩
          · exact absurd rfl hL
          · exact absurd (List.mem_cons_self _ _) hnl
        · exact (ih (n + 1) hinf).trans (List.suffix_cons c t).isInfix
    · rw [if_neg hc] at h
      rcases List.infix_cons_iff.mp h with hpre | hinf
      · rcases List.prefix_cons_iff.mp hpre with rfl | ⟨u, rfl, hu⟩
        · exact absurd rfl hL
        · have hufree : ∀ a ∈ u, (decide (a ≠ '\n')) = true := by
            intro a ha
            have : a ∈ c :: u := List.mem_cons_of_mem c ha
            simp only [decide_eq_true_eq]
            exact fun heq => hnl (heq ▸ this)
          have hu1 : u <+: (collapseNewlines 0 t).takeWhile (· ≠ '\n') :=
            prefix_takeWhile hu hufree
          rw [collapse_takeWhile_ne_newline] at hu1
          have hu2 : u <+: t := hu1.trans (List.takeWhile_prefix _)
          exact (List.cons_prefix_cons.mpr ⟨rfl, hu2⟩).isInfix
      · exact (ih 0 hinf).trans (List.suffix_cons c t).isInfix

/-- A non-empty newline-free infix of the first rule pass lies inside a
kept line, which is a line of the input that does not begin with the
co-author literal. -/
lemma infix_applyCoAuthor {L x : List Char} (hL : L ≠ []) (hnl : '\n' ∉ L)
    (h : L <:+: applyCoAuthor x) :
    ∃ l ∈ splitOnC '\n' x, L <:+: l ∧ coAuthorLit.isPrefixOf l = false := by
  unfold applyCoAuthor at h
  obtain ⟨p, hp, hinf⟩ := infix_joinWithC hL hnl h
  obtain ⟨l, hl, hstrip⟩ := List.mem_map.mp hp
  cases hpre : coAuthorLit.isPrefixOf l with
  | true =>
    rw [← hstrip, stripCoAuthorLine, if_pos hpre] at hinf
    exact absurd (by simpa using hinf) hL
  | false =>
    rw [← hstrip, stripCoAuthorLine, if_neg (by simp [hpre])] at hinf
    exact ⟨l, hl, hinf, hpre⟩

/-- C2 counterexample: `FilterBody` output can contain a match of
either default rule.  Trimming `" Co-Authored-By: a"` exposes a
line-anchored co-author match, and on the six-dash input the footer
replacement joins the kept `---` with the second attribution line into
a new footer match. -/
theorem c2_output_can_match :
    hasCoAuthorMatch (FilterBody " Co-Authored-By: a".toList) = true ∧
    hasFooterMatch (FilterBody "------\nPull Request opened by [A](u) with guidance from B\nPull Request opened by [C](u) with guidance from D".toList) = true := by
  constructor <;> decide

/-- C2 (amended): for every input in which each line containing the
co-author literal begins with it and which contains no occurrence of
`---`, the output of `FilterBody` contains no match of the co-author
rule and no match of the promotional-footer rule. -/
theorem c2_no_matches_in_output (x : List Char)
    (hco : ∀ l ∈ splitOnC '\n' x,
      coAuthorLit.isPrefixOf l = true ∨ ¬ (coAuthorLit <:+: l))
    (hdash : ¬ (['-', '-', '-'] <:+: x)) :
    hasCoAuthorMatch (FilterBody x) = false ∧
    hasFooterMatch (FilterBody x) = false := by
  by_cases hx : x = []
  · subst hx
    exact ⟨by decide, rfl⟩
  · have hbody : FilterBody x
        = trimSpace (collapseBlankRuns (applyFooter (applyCoAuthor x))) := by
      rw [FilterBody, if_neg hx]
    have hdashy : ¬ (['-', '-', '-'] <:+: applyCoAuthor x) := by
      intro h
      obtain ⟨l, hl, hinf, -⟩ := infix_applyCoAuthor (by decide) (by decide) h
      exact hdash (hinf.trans (infix_of_mem_splitOnC hl))
    have hcoy : ¬ (coAuthorLit <:+: applyCoAuthor x) := by
      intro h
      obtain ⟨l, hl, hinf, hpre⟩ :=
        infix_applyCoAuthor (by decide) (by decide) h
      rcases hco l hl with h1 | h2
      · rw [hpre] at h1
        cases h1
      · exact h2 hinf
    have hfy : hasFooterMatch (applyCoAuthor x) = false := by
      cases hFM : hasFooterMatch (applyCoAuthor x) with
      | false => rfl
      | true => exact absurd (hasFooterMatch_dashes _ hFM) hdashy
    have happ : applyFooter (applyCoAuthor x) = applyCoAuthor x :=
      footerScan_id _ hfy
    have hout : ∀ {M : List Char}, M ≠ [] → '\n' ∉ M →
        M <:+: FilterBody x → M <:+: applyCoAuthor x := by
      intro M hM hMnl h
      rw [hbody, happ] at h
      exact infix_collapse hM hMnl _ 0 (h.trans (trimSpace_infix_self _))
    constructor
    · cases hC : hasCoAuthorMatch (FilterBody x) with
      | false => rfl
      | true =>
        exact absurd (hout (by decide) (by decide)
          (hasCoAuthorMatch_contains_lit hC)) hcoy
    · cases hF : hasFooterMatch (FilterBody x) with
      | false => rfl
      | true =>
        exact absurd (hout (by decide) (by decide)
          (hasFooterMatch_dashes _ hF)) hdashy

/-- Closed instance of `c2_no_matches_in_output`. -/
theorem c2_no_matches_in_output_witness :
    hasCoAuthorMatch (FilterBody "Hello\nCo-Authored-By: J <j@x.com>\nWorld".toList) = false ∧
    hasFooterMatch (FilterBody "Hello\nCo-Authored-By: J <j@x.com>\nWorld".toList) = false :=
  c2_no_matches_in_output "Hello\nCo-Authored-By: J <j@x.com>\nWorld".toList
    (by decide) (by decide)

/-- C5: when the requested path is empty, `validateRepoPath` fails (with
the no-repository error) if and only if the allowed list is empty, and
when the allowed list is non-empty it returns its first entry. -/
theorem c5_empty_request_default (gitExists : List Char → Bool)
    (cwd : List Char) (allowedPaths : List (List Char)) :
    (validateRepoPath gitExists cwd [] allowedPaths
        = .error .noRepoConfigured ↔ allowedPaths = []) ∧
    (∀ a rest, allowedPaths = a :: rest →
      validateRepoPath gitExists cwd [] allowedPaths = .ok a) := by
  constructor
  · cases allowedPaths <;> simp [validateRepoPath]
  · rintro a rest rfl
    rfl

/-- Closed instance of `c5_empty_request_default`. -/
theorem c5_empty_request_default_witness :
    validateRepoPath (fun _ => false) "/w".toList [] ["/repos/a".toList]
      = .ok "/repos/a".toList :=
  (c5_empty_request_default (fun _ => false) "/w".toList
    ["/repos/a".toList]).2 "/repos/a".toList [] rfl

/-- C10: on the empty-request branch with a non-empty allowed list,
`validateRepoPath` returns the first allowed entry without consulting
the filesystem or the containment check: the result does not depend on
the `.git` oracle or the working directory, and the access-denied and
not-a-git-repository errors are unreachable, even when the first entry
is not a git repository. -/
theorem c10_empty_request_skips_checks (gitExists gitExists' : List Char → Bool)
    (cwd cwd' : List Char) (a : List Char) (rest : List (List Char))
    (allowedPaths : List (List Char)) (h : allowedPaths = a :: rest) :
    validateRepoPath gitExists cwd [] allowedPaths = .ok a ∧
    validateRepoPath gitExists cwd [] allowedPaths
      = validateRepoPath gitExists' cwd' [] allowedPaths ∧
    validateRepoPath gitExists cwd [] allowedPaths ≠ .error .accessDenied ∧
    validateRepoPath gitExists cwd [] allowedPaths ≠ .error .notGitRepository := by
  subst h
  refine ⟨rfl, rfl, ?_, ?_⟩ <;> simp [validateRepoPath]

/-- Closed instance of `c10_empty_request_skips_checks` with a first
entry that is not a git repository (its `.git` oracle is everywhere
false). -/
theorem c10_empty_request_skips_checks_witness :
    validateRepoPath (fun _ => false) "/w".toList [] ["/not/a/repo".toList]
      = .ok "/not/a/repo".toList :=
  (c10_empty_request_skips_checks (fun _ => false) (fun _ => true)
    "/w".toList "/x".toList "/not/a/repo".toList [] _ rfl).1

/-- On a non-empty request, `validateRepoPath` reduces to the
containment check followed by the `.git` check on the resolved absolute
path. -/
lemma validateRepoPath_nonempty (gitExists : List Char → Bool)
    (cwd req : List Char) (allowed : List (List Char)) (hreq : req ≠ []) :
    validateRepoPath gitExists cwd req allowed =
      (if (!allowed.any fun repoPath => repoPath.isPrefixOf (goAbs cwd req))
            && !allowed.isEmpty then
        .error .accessDenied
      else if !gitExists (goJoin (goAbs cwd req) dotGit) then
        .error .notGitRepository
      else .ok (goAbs cwd req)) := by
  simp only [validateRepoPath, if_neg hreq]

/-- The boolean containment check agrees with the existence of an
allowed entry that is a string prefix of the resolved path. -/
lemma any_isPrefixOf_iff (allowed : List (List Char)) (a : List Char) :
    (allowed.any fun repoPath => repoPath.isPrefixOf a) = true ↔
      ∃ r ∈ allowed, r <+: a := by
  rw [List.any_eq_true]
  exact exists_congr fun r =>
    and_congr_right fun _ => List.isPrefixOf_iff_prefix

/-- An absolute requested path resolves independently of the working
directory. -/
lemma goAbs_absolute (cwd p : List Char) (h : isAbsPath p = true) :
    goAbs cwd p = goClean p := by
  simp [goAbs, h]

/-- C3: with a non-empty allowed list and a non-empty request,
`validateRepoPath` fails with access denied exactly when no allowed
entry is a string prefix of the resolved absolute path; the sibling
path `/home/user/repo-other` of the allowed root `/home/user/repo`
passes the containment check, and `/etc` against `["/repos/a"]` is
denied. -/
theorem c3_containment_string_prefix_check (gitExists : List Char → Bool)
    (cwd requestedPath : List Char) (allowedPaths : List (List Char))
    (hreq : requestedPath ≠ []) (hall : allowedPaths ≠ []) :
    (validateRepoPath gitExists cwd requestedPath allowedPaths
        = .error .accessDenied ↔
      ¬ ∃ r ∈ allowedPaths, r <+: goAbs cwd requestedPath) ∧
    (∀ gE cwd', validateRepoPath gE cwd' "/home/user/repo-other".toList
        ["/home/user/repo".toList] ≠ .error .accessDenied) ∧
    (∀ gE cwd', validateRepoPath gE cwd' "/etc".toList ["/repos/a".toList]
        = .error .accessDenied) := by
  refine ⟨?_, ?_, ?_⟩
  · rw [validateRepoPath_nonempty gitExists cwd requestedPath allowedPaths hreq]
    have hE : allowedPaths.isEmpty = false := by
      simpa [List.isEmpty_iff] using hall
    cases hA : allowedPaths.any
        fun repoPath => repoPath.isPrefixOf (goAbs cwd requestedPath)
    · have hne : ¬ ∃ r ∈ allowedPaths, r <+: goAbs cwd requestedPath := by
        rw [← any_isPrefixOf_iff]
        simp [hA]
      simp [hE, hne]
    · have hex : ∃ r ∈ allowedPaths, r <+: goAbs cwd requestedPath :=
        (any_isPrefixOf_iff _ _).mp hA
      simp only [Bool.not_true, Bool.false_and, Bool.false_eq_true, if_false]
      constructor
      · intro h
        split at h <;> simp_all
      · intro h
        exact absurd hex h
  · intro gE cwd'
    rw [validateRepoPath_nonempty gE cwd' _ _ (by decide),
      goAbs_absolute cwd' _ (by decide)]
    rw [show goClean "/home/user/repo-other".toList
        = "/home/user/repo-other".toList from by decide]
    rw [if_neg (by decide)]
    split <;> simp
  · intro gE cwd'
    rw [validateRepoPath_nonempty gE cwd' _ _ (by decide),
      goAbs_absolute cwd' _ (by decide)]
    rw [show goClean "/etc".toList = "/etc".toList from by decide]
    rw [if_pos (by decide)]

/-- Closed instance of `c3_containment_string_prefix_check`. -/
theorem c3_containment_string_prefix_check_witness :
    validateRepoPath (fun _ => false) "/w".toList "/etc".toList
      ["/repos/a".toList] = .error .accessDenied :=
  (c3_containment_string_prefix_check (fun _ => false) "/w".toList
    "/etc".toList ["/repos/a".toList] (by decide) (by decide)).2.2
    (fun _ => false) "/w".toList

/-- C4: once the containment check is passed (or the allowed list is
empty) on a non-empty request, `validateRepoPath` fails with the
not-a-git-repository error exactly when the `.git` entry is absent
directly beneath the resolved path, and returns the resolved absolute
path when the entry is present; in particular `/repos/a/sub` under the
root `/repos/a` with no `.git` beneath it is rejected. -/
theorem c4_git_directory_check (gitExists : List Char → Bool)
    (cwd requestedPath : List Char) (allowedPaths : List (List Char))
    (hreq : requestedPath ≠ [])
    (hcont : allowedPaths = [] ∨
      ∃ r ∈ allowedPaths, r <+: goAbs cwd requestedPath) :
    (validateRepoPath gitExists cwd requestedPath allowedPaths
        = .error .notGitRepository ↔
      gitExists (goJoin (goAbs cwd requestedPath) dotGit) = false) ∧
    (gitExists (goJoin (goAbs cwd requestedPath) dotGit) = true →
      validateRepoPath gitExists cwd requestedPath allowedPaths
        = .ok (goAbs cwd requestedPath)) ∧
    (∀ gE cwd', gE "/repos/a/sub/.git".toList = false →
      validateRepoPath gE cwd' "/repos/a/sub".toList ["/repos/a".toList]
        = .error .notGitRepository) := by
  have hno : ¬ ((!allowedPaths.any
      fun repoPath => repoPath.isPrefixOf (goAbs cwd requestedPath)) &&
        !allowedPaths.isEmpty) = true := by
    rcases hcont with rfl | hex
    · simp
    · have hA := (any_isPrefixOf_iff allowedPaths
        (goAbs cwd requestedPath)).mpr hex
      simp [hA]
  refine ⟨?_, ?_, ?_⟩
  · rw [validateRepoPath_nonempty gitExists cwd requestedPath allowedPaths hreq,
      if_neg hno]
    cases hgit : gitExists (goJoin (goAbs cwd requestedPath) dotGit) <;> simp
  · intro hgit
    rw [validateRepoPath_nonempty gitExists cwd requestedPath allowedPaths hreq,
      if_neg hno, hgit]
    rfl
  · intro gE cwd' hgE
    rw [validateRepoPath_nonempty gE cwd' _ _ (by decide),
      goAbs_absolute cwd' _ (by decide)]
    rw [show goClean "/repos/a/sub".toList = "/repos/a/sub".toList from by decide]
    rw [if_neg (by decide)]
    rw [show goJoin "/repos/a/sub".toList dotGit
        = "/repos/a/sub/.git".toList from by decide]
    rw [hgE]
    rfl

/-- Closed instance of `c4_git_directory_check`. -/
theorem c4_git_directory_check_witness :
    validateRepoPath (fun _ => false) "/w".toList "/repos/a/sub".toList
      ["/repos/a".toList] = .error .notGitRepository :=
  (c4_git_directory_check (fun _ => false) "/w".toList
    "/repos/a/sub".toList ["/repos/a".toList] (by decide)
    (Or.inr ⟨"/repos/a".toList, by simp, by decide⟩)).2.2
    (fun _ => false) "/w".toList rfl

/-- C7: `SetFilterPatterns` never fails: for every compile function and
every input list of patterns it installs exactly the successfully
compiled patterns, in input order, skipping the failures. -/
theorem c7_set_filter_patterns_skips_failures {Rule : Type}
    (compile : List Char → Option Rule) (patterns : List (List Char)) :
    SetFilterPatterns compile patterns = patterns.filterMap compile := by
  induction patterns with
  | nil => rfl
  | cons p rest ih =>
    simp only [SetFilterPatterns, List.filterMap_cons]
    cases compile p <;> simp [ih]

/-- A `dropWhile` that skips everything different from `c` either
exhausts the list or stops exactly at a `c`. -/
lemma dropWhile_ne_shape (c : Char) (l : List Char) :
    l.dropWhile (· ≠ c) = [] ∨ ∃ t, l.dropWhile (· ≠ c) = c :: t := by
  induction l with
  | nil => exact Or.inl rfl
  | cons a t ih =>
    by_cases h : a = c
    · subst h
      right
      exact ⟨t, by simp [List.dropWhile_cons]⟩
    · simpa [List.dropWhile_cons, h] using ih

/-- The remainder after the attribution part of a footer match is empty
or begins with a newline. -/
lemma matchAttribution_shape (s rest : List Char)
    (h : matchAttribution s = some rest) :
    rest = [] ∨ ∃ t, rest = '\n' :: t := by
  unfold matchAttribution at h
  repeat' split at h
  all_goals try exact Option.noConfusion h
  injection h with h
  rw [← h]
  exact dropWhile_ne_shape '\n' _

/-- The remainder after the link-and-tail part of a footer match is
empty or begins with a newline. -/
lemma matchLinkAndTail_shape (s rest : List Char)
    (h : matchLinkAndTail s = some rest) :
    rest = [] ∨ ∃ t, rest = '\n' :: t := by
  unfold matchLinkAndTail at h
  repeat' split at h
  all_goals try exact Option.noConfusion h
  all_goals exact matchAttribution_shape _ _ h

/-- C6: the default promotional-footer rule matches with a line break
between the `---` marker and the `Pull Request opened by` text — on the
literal input of the spec the footer is removed in full — and every
match of the rule stops at the end of the attribution line: the
remainder of the text after any match is empty or starts with a
newline. -/
theorem c6_footer_rule_extent :
    (FilterBody "Quick fix\n\n---\nPull Request opened by [X](http://x.com) with guidance from Y".toList
      = "Quick fix".toList) ∧
    (∀ s rest, matchFooter s = some rest → rest = [] ∨ ∃ t, rest = '\n' :: t) := by
  refine ⟨by decide, ?_⟩
  intro s rest h
  unfold matchFooter at h
  repeat' split at h
  all_goals try exact Option.noConfusion h
  all_goals exact matchLinkAndTail_shape _ _ h

/-- Closed instance of `c6_footer_rule_extent`: the match inside a text
with trailing content after the attribution line stops before that
content. -/
theorem c6_footer_rule_extent_witness :
    ("\nKept text".toList = [] ∨ ∃ t, "\nKept text".toList = '\n' :: t) ∧
    FilterBody "Quick fix\n\n---\nPull Request opened by [X](http://x.com) with guidance from Y".toList
      = "Quick fix".toList :=
  ⟨c6_footer_rule_extent.2
      "---\nPull Request opened by [X](http://x.com) with guidance from Y\nKept text".toList
      "\nKept text".toList (by decide),
    c6_footer_rule_extent.1⟩

/-- C9: on the trailer block with `Signed-off-by`, `Co-Authored-By` and
`Reviewed-by` on three consecutive lines, `FilterBody` removes only the
`Co-Authored-By` line and keeps the other two byte-for-byte, with
exactly one blank line where the removed line was. -/
theorem c9_preserves_other_trailers :
    FilterBody ("Fix critical bug\n\nSigned-off-by: Developer <dev@example.com>\nCo-Authored-By: John Doe <john@example.com>\nReviewed-by: Reviewer <reviewer@example.com>".toList)
      = "Fix critical bug\n\nSigned-off-by: Developer <dev@example.com>\n\nReviewed-by: Reviewer <reviewer@example.com>".toList := by
  decide

end Claims
